import Mathlib

/-!
Verification of the HHL circuit-assembly and result-extraction pipeline
(`qiskit/aqua/algorithms/single_sample/hhl/hhl.py`).

The development embeds, in order:
* the input validation of `HHL.init_params` (dimension match, power-of-two check);
* the post-selection counts filter of `HHL._tomo_postselect` together with a
  model of the external marginalization step;
* the numeric result pipeline (`_statevector_simulation`, `_state_tomography`,
  `_hhl_results`) over exact complex arithmetic;
* a state-passing model of `construct_circuit` and `_run`.
-/

set_option maxHeartbeats 1000000

namespace HHLSpec

/-! ## Input validation (`HHL.init_params`, hhl.py lines 135-141) -/

/-- Decidable power-of-two test. `np.log2(m) % 1 != 0` fails exactly when `m`
is not of the form `2^k` (the float `log2` of an integer is an integer exactly
on powers of two; `log2 0 = -inf` also fails the test). The search bound
`m + 1` is sound because `k < 2^k`. -/
def isPow2 (m : ℕ) : Bool :=
  (List.range (m + 1)).any (fun k => m == 2 ^ k)

theorem isPow2_iff (m : ℕ) : isPow2 m = true ↔ ∃ k, m = 2 ^ k := by
  constructor
  · intro h
    rcases List.any_eq_true.mp h with ⟨k, _, hk⟩
    exact ⟨k, by simpa using hk⟩
  · rintro ⟨k, rfl⟩
    refine List.any_eq_true.mpr ⟨k, List.mem_range.mpr ?_, by simp⟩
    exact Nat.lt_succ_of_lt (Nat.lt_two_pow k)

/-- The dimension validation performed by `HHL.init_params` before any module
or circuit is constructed: first the matrix-row/vector-length match, then the
power-of-two test on the matrix dimension.  `rows` stands for
`matrix.shape[0]` and `veclen` for `len(vector)`. -/
def initParamsValidate (rows veclen : ℕ) : Except String Unit :=
  if rows ≠ veclen then
    Except.error ("Input vector dimension does not match input matrix dimension!")
  else if isPow2 rows then
    Except.ok ()
  else
    Except.error ("Matrix dimension must be 2**n!")

/-! ## Post-selection of tomography counts (`HHL._tomo_postselect`) -/

/-- A counts mapping: association list from a measured key (list of characters,
most significant bit first, registers separated by a space as in qiskit counts
keys) to an occurrence count.  Python `dict` iteration order is insertion
order, which the list order mirrors. -/
abbrev Counts := List (List Char × ℕ)

/-- Total number of shots recorded in a counts mapping. -/
def countsTotal (c : Counts) : ℕ :=
  (c.map Prod.snd).sum

/-- The per-pair filtering loop of `_tomo_postselect` (hhl.py lines 273-277):
keep a pair when the character at `k[-1-select_bitpos]` is `'1'` and re-key it
to `k[:select_bitpos-2]`.  The success register is the one-bit
`ClassicalRegister` bound in `construct_circuit`, so its clbit label index
`select_bitpos` is `0`: the test reads the last character and the slice
`k[:-2]` drops the success bit together with the register separator. -/
def postselectPairs (allCounts : Counts) : Counts :=
  (allCounts.filter (fun kv => kv.1.getLast? == some '1')).map
    (fun kv => (kv.1.dropLast.dropLast, kv.2))

/-- Python `dict` assignment `d[k] = v`: overwrite the value at an existing
key in place, otherwise append the new pair. -/
def dictInsert : Counts → List Char → ℕ → Counts
  | [], k, v => [(k, v)]
  | kv :: rest, k, v =>
    if kv.1 == k then (kv.1, v) :: rest else kv :: dictInsert rest k v

/-- Python `dict(zip(filt_keys, filt_counts))` (hhl.py line 277). -/
def dictOfPairs (ps : Counts) : Counts :=
  ps.foldl (fun d kv => dictInsert d kv.1 kv.2) []

/-- The post-selection step of `_tomo_postselect` (hhl.py lines 271-279):
filter on the success bit, re-key, build the dict, and substitute the
synthetic `{'0': 0}` entry when nothing survived. -/
def tomoPostselectCounts (allCounts : Counts) : Counts :=
  let fl := dictOfPairs (postselectPairs allCounts)
  if fl = [] then [([ '0' ], 0)] else fl

/-- Character of key `k` giving the measured bit of qubit `q` (qubit `0` is
the last character of the key). -/
def bitAt (k : List Char) (q : ℕ) : Char :=
  k.getD (k.length - 1 - q) '0'

/-- Modelled from the spec: the marginal key used by `tomo.marginal_counts`
(external qiskit-terra code, absent from this repository) — per §4.4 it keeps
the bits at the target-qubit positions, most significant first, dropping every
other bit.  The target list `tomoset['qubits']` is ascending, so its reverse
lists the kept qubits from most to least significant. -/
def marginalKey (k : List Char) (qubits : List ℕ) : List Char :=
  qubits.reverse.map (bitAt k)

/-- Add `v` shots to key `k` of an accumulated counts mapping, summing with an
existing entry for `k` if present. -/
def addCount : Counts → List Char → ℕ → Counts
  | [], k, v => [(k, v)]
  | kv :: rest, k, v =>
    if kv.1 == k then (kv.1, kv.2 + v) :: rest else kv :: addCount rest k v

/-- Modelled from the spec: `tomo.marginal_counts` (external qiskit-terra
code, absent from this repository) — §4.4: strip the bits not in
`target_qubits` from every key and sum the counts of the resulting
collisions. -/
def marginal_counts (c : Counts) (qubits : List ℕ) : Counts :=
  c.foldl (fun d kv => addCount d (marginalKey kv.1 qubits) kv.2) []

/-! ### Counts lemmas -/

theorem addCount_total (d : Counts) (k : List Char) (v : ℕ) :
    countsTotal (addCount d k v) = countsTotal d + v := by
  induction d with
  | nil => simp [addCount, countsTotal]
  | cons kv rest ih =>
    simp only [addCount]
    split
    · simp only [countsTotal, List.map_cons, List.sum_cons]
      omega
    · simp only [countsTotal, List.map_cons, List.sum_cons]
      simp only [countsTotal] at ih
      omega

theorem marginal_counts_total_aux (c : Counts) (qubits : List ℕ) :
    ∀ d : Counts,
      countsTotal (c.foldl (fun d kv => addCount d (marginalKey kv.1 qubits) kv.2) d) =
        countsTotal d + countsTotal c := by
  induction c with
  | nil => intro d; simp [countsTotal]
  | cons kv rest ih =>
    intro d
    simp only [List.foldl_cons]
    rw [ih, addCount_total]
    simp [countsTotal]
    omega

/-- Marginalization never loses shots: the totals of a counts mapping are
preserved by `marginal_counts`. -/
theorem marginal_counts_total (c : Counts) (qubits : List ℕ) :
    countsTotal (marginal_counts c qubits) = countsTotal c := by
  have h := marginal_counts_total_aux c qubits []
  simpa [marginal_counts, countsTotal] using h

/-- Inserting a fresh key appends it to the key list. -/
theorem dictInsert_keys_of_not_mem (d : Counts) (k : List Char) (v : ℕ)
    (h : k ∉ d.map Prod.fst) :
    (dictInsert d k v).map Prod.fst = d.map Prod.fst ++ [k] := by
  induction d with
  | nil => simp [dictInsert]
  | cons kv rest ih =>
    simp only [List.map_cons, List.mem_cons] at h
    push_neg at h
    have hne : (kv.1 == k) = false := by
      simpa using fun he => h.1 he.symm
    simp only [dictInsert, hne, Bool.false_eq_true, if_false, List.map_cons,
      List.cons_append, List.cons.injEq, true_and]
    exact ih h.2

/-- Inserting a fresh key adds its count to the total. -/
theorem dictInsert_total_of_not_mem (d : Counts) (k : List Char) (v : ℕ)
    (h : k ∉ d.map Prod.fst) :
    countsTotal (dictInsert d k v) = countsTotal d + v := by
  induction d with
  | nil => simp [dictInsert, countsTotal]
  | cons kv rest ih =>
    simp only [List.map_cons, List.mem_cons] at h
    push_neg at h
    have hne : (kv.1 == k) = false := by
      simpa using fun he => h.1 he.symm
    simp only [dictInsert, hne, Bool.false_eq_true, if_false, countsTotal,
      List.map_cons, List.sum_cons]
    have := ih h.2
    simp only [countsTotal] at this
    omega

/-- When the incoming keys are pairwise distinct and disjoint from the
accumulator, `dictInsert`-folding preserves totals (no overwrite occurs). -/
theorem foldl_dictInsert_total (ps : Counts) :
    ∀ d : Counts, (ps.map Prod.fst).Nodup →
      (∀ k ∈ ps.map Prod.fst, k ∉ d.map Prod.fst) →
      countsTotal (ps.foldl (fun d kv => dictInsert d kv.1 kv.2) d) =
        countsTotal d + countsTotal ps := by
  induction ps with
  | nil => intro d _ _; simp [countsTotal]
  | cons kv rest ih =>
    intro d hnd hdis
    simp only [List.map_cons, List.nodup_cons] at hnd
    have hfresh : kv.1 ∉ d.map Prod.fst := hdis kv.1 (by simp)
    simp only [List.foldl_cons]
    rw [ih (dictInsert d kv.1 kv.2) hnd.2 ?_]
    · rw [dictInsert_total_of_not_mem d kv.1 kv.2 hfresh]
      simp only [countsTotal, List.map_cons, List.sum_cons]
      omega
    · intro k hk
      rw [dictInsert_keys_of_not_mem d kv.1 kv.2 hfresh]
      simp only [List.mem_append, List.mem_singleton]
      push_neg
      constructor
      · exact hdis k (by simp [hk])
      · intro he
        exact hnd.1 (he ▸ hk)

/-- `dictOfPairs` preserves totals when the keys are pairwise distinct. -/
theorem dictOfPairs_total (ps : Counts) (h : (ps.map Prod.fst).Nodup) :
    countsTotal (dictOfPairs ps) = countsTotal ps := by
  have := foldl_dictInsert_total ps [] h (by simp)
  simpa [dictOfPairs, countsTotal] using this

/-! ## Numeric result pipeline

Exact complex arithmetic stands in for numpy floating point: `l2norm` is
`np.linalg.norm`, `dotConj u v` is `u.dot(v.conj())`, `npSolve` is
`np.linalg.solve` (the exact solution `A⁻¹ b`), `npSqrtC` is the principal
complex square root `np.sqrt`, and `Complex.arg` is `np.angle`. -/

/-- `np.linalg.norm`: the L2 norm of a complex vector. -/
noncomputable def l2norm {n : ℕ} (v : Fin n → ℂ) : ℝ :=
  Real.sqrt (∑ i, Complex.normSq (v i))

/-- `u.dot(v.conj())`: complex inner product with the conjugate taken on the
second argument. -/
noncomputable def dotConj {n : ℕ} (u v : Fin n → ℂ) : ℂ :=
  ∑ i, u i * (starRingEnd ℂ) (v i)

/-- `np.linalg.solve(A, b)`: the exact solution of the linear system. -/
noncomputable def npSolve {n : ℕ} (A : Matrix (Fin n) (Fin n) ℂ) (b : Fin n → ℂ) :
    Fin n → ℂ :=
  A⁻¹.mulVec b

/-- `np.sqrt` on a complex scalar: the principal square root. -/
noncomputable def npSqrtC (z : ℂ) : ℂ :=
  z ^ ((1 : ℂ) / 2)

/-- The run's accumulated output mapping `self._ret`, restricted to the keys
the result pipeline writes.  `probability_result` holds a scalar on the
statevector path and a per-basis list on the tomography path.  The
dag-derived circuit statistics (`circuit_width`, `circuit_depth`,
`gate_count_total`) and `eigenvalues_classical` are produced by external
converters/LAPACK and are not modelled. -/
structure RetRecord (n : ℕ) where
  probability_result : Option (ℂ ⊕ List ℝ) := none
  output_hhl : Option (Fin n → ℂ) := none
  fidelity_hhl_to_classical : Option ℝ := none
  solution_hhl : Option (Fin n → ℂ) := none
  input_matrix : Option (Matrix (Fin n) (Fin n) ℂ) := none
  input_vector : Option (Fin n → ℂ) := none
  solution_classical : Option (Fin n → ℂ) := none

/-- `HHL._hhl_results` (hhl.py lines 301-311): store the handed vector as
`output_hhl`, compute the fidelity against the normalized classical solution
(conjugate on the handed vector), and rescale by
`f1 = ||b|| / ||A·vec||` and the averaged phase
`f2 = (Σ angle(b_i · conj((A·vec)_i) - 1 + 1)) / num_q` (the source adds
`- 1 + 1` to repair the float angle of `-0.-0.j`; over exact arithmetic it is
the identity and is kept verbatim). -/
noncomputable def hhl_results {n : ℕ} (A : Matrix (Fin n) (Fin n) ℂ)
    (b : Fin n → ℂ) (num_q : ℕ) (vec : Fin n → ℂ) (ret : RetRecord n) :
    RetRecord n :=
  let theo0 := npSolve A b
  let theo := fun i => theo0 i / (l2norm theo0 : ℂ)
  let fid := Complex.abs (dotConj theo vec) ^ 2
  let tmp := A.mulVec vec
  let f1 := l2norm b / l2norm tmp
  let f2 := (∑ i, Complex.arg (b i * (starRingEnd ℂ) (tmp i) - 1 + 1)) / (num_q : ℝ)
  { ret with
      output_hhl := some vec
      fidelity_hhl_to_classical := some fid
      solution_hhl := some (fun i => (f1 : ℂ) * vec i * Complex.exp (-Complex.I * (f2 : ℂ))) }

/-- `HHL._statevector_simulation` (hhl.py lines 209-221): project the full
statevector through the reciprocal collaborator's `sv_to_resvec` rule
(abstracted as the parameter `svProj`, per the §6 collaborator contract),
record `vec.dot(vec.conj())` as `probability_result`, L2-normalize, and hand
the result to `_hhl_results`. -/
noncomputable def statevector_simulation {n : ℕ} {SV : Type}
    (A : Matrix (Fin n) (Fin n) ℂ) (b : Fin n → ℂ) (num_q : ℕ)
    (svProj : SV → (Fin n → ℂ)) (sv : SV) (ret : RetRecord n) : RetRecord n :=
  let vec := svProj sv
  let ret1 := { ret with probability_result := some (Sum.inl (dotConj vec vec)) }
  let vecN := fun i => vec i / (l2norm vec : ℂ)
  hhl_results A b num_q vecN ret1

/-- The tomographic rescaling `vec = rho_fit[:, 0] / np.sqrt(rho_fit[0, 0])`
(hhl.py line 256). -/
noncomputable def tomoVec {n : ℕ} [NeZero n] (rho : Matrix (Fin n) (Fin n) ℂ) :
    Fin n → ℂ :=
  fun i => rho i 0 / npSqrtC (rho 0 0)

/-- `HHL._state_tomography` (hhl.py lines 223-257) after backend execution:
`probs` is the per-basis success-probability list computed from the raw
counts, `rho` the density matrix returned by the external
`tomo.fit_tomography_data` on the post-selected counts.  The fitted column is
rescaled by `1/np.sqrt(rho[0,0])` and handed directly to `_hhl_results`. -/
noncomputable def state_tomography {n : ℕ} [NeZero n]
    (A : Matrix (Fin n) (Fin n) ℂ) (b : Fin n → ℂ) (num_q : ℕ)
    (probs : List ℝ) (rho : Matrix (Fin n) (Fin n) ℂ) (ret : RetRecord n) :
    RetRecord n :=
  let ret1 := { ret with probability_result := some (Sum.inr probs) }
  hhl_results A b num_q (tomoVec rho) ret1

/-! ## Circuit assembly and run dispatch -/

/-- A quantum register: name and size. -/
structure QuantumReg where
  name : String
  size : ℕ
deriving DecidableEq

/-- A classical register (only its size matters here). -/
structure ClassicalReg where
  size : ℕ
deriving DecidableEq

/-- The operations appended by `construct_circuit`, in order: the three
pluggable fragments, the inverse eigenvalue estimation, and (optionally) the
measurement binding the success ancilla to a classical bit. -/
inductive CircuitOp where
  | initStateFragment
  | eigsFragment
  | reciprocalFragment
  | eigsInverseFragment
  | measure (q : QuantumReg) (c : ClassicalReg)
deriving DecidableEq

/-- The assembled circuit: its registers and operation list. -/
structure Circuit where
  qregs : List QuantumReg
  cregs : List ClassicalReg
  ops : List CircuitOp
deriving DecidableEq

/-- `HHL.construct_circuit` (hhl.py lines 165-206): compose state
preparation, eigenvalue estimation, reciprocal rotation and inverse
eigenvalue estimation on the `io` register; when `measurement` is set,
append a one-bit classical register and measure the success ancilla into it.
The eigenvalue register `a` and success ancilla `anc` are produced by the
pluggable collaborators and enter as parameters. -/
def construct_circuit (num_q : ℕ) (a anc : QuantumReg) (measurement : Bool) :
    Circuit :=
  let io : QuantumReg := ⟨"io", num_q⟩
  let base : Circuit :=
    ⟨[io, a, anc], [],
      [CircuitOp.initStateFragment, CircuitOp.eigsFragment,
       CircuitOp.reciprocalFragment, CircuitOp.eigsInverseFragment]⟩
  if measurement then
    { base with
        cregs := [⟨1⟩]
        ops := base.ops ++ [CircuitOp.measure anc ⟨1⟩] }
  else base

/-- The mutable state of an `HHL` instance: constructor inputs plus the
fields written by `construct_circuit` and `_run`. -/
structure HHLState (n : ℕ) where
  matrix : Matrix (Fin n) (Fin n) ℂ
  vector : Fin n → ℂ
  num_q : ℕ
  circuit : Option Circuit := none
  io_register : Option QuantumReg := none
  eigenvalue_register : Option QuantumReg := none
  ancilla_register : Option QuantumReg := none
  success_bit : Option ClassicalReg := none
  ret : RetRecord n := {}

/-- `HHL.__init__` (hhl.py lines 79-115): store the inputs, leave the
circuit, registers, success bit and result record empty. -/
def hhlInit {n : ℕ} (A : Matrix (Fin n) (Fin n) ℂ) (b : Fin n → ℂ)
    (num_q : ℕ) : HHLState n :=
  { matrix := A, vector := b, num_q := num_q }

/-- The state updates performed by `construct_circuit`: store the circuit and
the register references; `_success_bit` is written only when measurement is
requested. -/
def constructCircuitState {n : ℕ} (s : HHLState n) (a anc : QuantumReg)
    (measurement : Bool) : HHLState n :=
  { s with
      circuit := some (construct_circuit s.num_q a anc measurement)
      io_register := some ⟨"io", s.num_q⟩
      eigenvalue_register := some a
      ancilla_register := some anc
      success_bit := if measurement then some ⟨1⟩ else s.success_bit }

/-- `HHL._run` (hhl.py lines 313-331): dispatch on the backend capability
flag `is_statevector`; the statevector path builds the circuit without
measurement, the tomography path with measurement; afterwards record the
input matrix, input vector and classical solution.  The backend's answers
(`sv` for the statevector path; `probs` and the fitted `rho` for the
tomography path) enter as parameters. -/
noncomputable def run {n : ℕ} [NeZero n] {SV : Type} (s : HHLState n)
    (is_statevector : Bool) (svProj : SV → (Fin n → ℂ)) (sv : SV)
    (probs : List ℝ) (rho : Matrix (Fin n) (Fin n) ℂ) (a anc : QuantumReg) :
    HHLState n :=
  let s1 :=
    if is_statevector then
      let s' := constructCircuitState s a anc false
      { s' with ret := statevector_simulation s'.matrix s'.vector s'.num_q svProj sv s'.ret }
    else
      let s' := constructCircuitState s a anc true
      { s' with ret := state_tomography s'.matrix s'.vector s'.num_q probs rho s'.ret }
  { s1 with
      ret := { s1.ret with
                 input_matrix := some s1.matrix
                 input_vector := some s1.vector
                 solution_classical := some (npSolve s1.matrix s1.vector) } }

/-! ### Norm and inner-product lemmas -/

theorem sum_normSq_nonneg {n : ℕ} (v : Fin n → ℂ) :
    0 ≤ ∑ i, Complex.normSq (v i) :=
  Finset.sum_nonneg fun i _ => Complex.normSq_nonneg (v i)

theorem l2norm_nonneg {n : ℕ} (v : Fin n → ℂ) : 0 ≤ l2norm v :=
  Real.sqrt_nonneg _

theorem l2norm_mul_self {n : ℕ} (v : Fin n → ℂ) :
    l2norm v * l2norm v = ∑ i, Complex.normSq (v i) :=
  Real.mul_self_sqrt (sum_normSq_nonneg v)

theorem l2norm_eq_zero_iff {n : ℕ} (v : Fin n → ℂ) :
    l2norm v = 0 ↔ v = 0 := by
  unfold l2norm
  rw [Real.sqrt_eq_zero (sum_normSq_nonneg v)]
  constructor
  · intro h
    funext i
    have hall := (Finset.sum_eq_zero_iff_of_nonneg
      (fun j _ => Complex.normSq_nonneg (v j))).mp h i (Finset.mem_univ i)
    simpa using Complex.normSq_eq_zero.mp hall
  · intro h
    subst h
    simp

theorem l2norm_pos {n : ℕ} (v : Fin n → ℂ) (h : v ≠ 0) : 0 < l2norm v :=
  lt_of_le_of_ne (l2norm_nonneg v) fun he => h ((l2norm_eq_zero_iff v).mp he.symm)

theorem l2norm_smul {n : ℕ} (c : ℂ) (v : Fin n → ℂ) :
    l2norm (fun i => c * v i) = Complex.abs c * l2norm v := by
  unfold l2norm
  have h1 : ∀ i, Complex.normSq (c * v i) = Complex.normSq c * Complex.normSq (v i) :=
    fun i => Complex.normSq_mul c (v i)
  simp only [h1, ← Finset.mul_sum]
  rw [Real.sqrt_mul (Complex.normSq_nonneg c)]
  rw [← Complex.abs_apply]

theorem dotConj_self {n : ℕ} (v : Fin n → ℂ) :
    dotConj v v = ((∑ i, Complex.normSq (v i) : ℝ) : ℂ) := by
  unfold dotConj
  push_cast
  refine Finset.sum_congr rfl fun i _ => ?_
  exact Complex.mul_conj (v i)

theorem npSqrtC_ofReal (r : ℝ) (hr : 0 ≤ r) :
    npSqrtC (r : ℂ) = (Real.sqrt r : ℂ) := by
  unfold npSqrtC
  have h2 : ((1 : ℂ) / 2) = (((1 : ℝ) / 2 : ℝ) : ℂ) := by push_cast; ring
  rw [h2, ← Complex.ofReal_cpow hr, ← Real.sqrt_eq_rpow]

/-! ## Claim theorems -/

/-- C1: `init_params` validation succeeds iff the vector length equals the
matrix row count and the matrix dimension is an exact power of two; when
either constraint fails it deterministically raises the corresponding
explicit `ValueError`, before any module or circuit is constructed. -/
theorem init_params_validation (rows veclen : ℕ) :
    (initParamsValidate rows veclen = Except.ok () ↔
      (veclen = rows ∧ ∃ k, rows = 2 ^ k))
    ∧ (rows ≠ veclen →
        initParamsValidate rows veclen =
          Except.error ("Input vector dimension does not match input matrix dimension!"))
    ∧ (rows = veclen → (¬ ∃ k, rows = 2 ^ k) →
        initParamsValidate rows veclen =
          Except.error ("Matrix dimension must be 2**n!")) := by
  unfold initParamsValidate
  refine ⟨⟨?_, ?_⟩, ?_, ?_⟩
  · intro h
    by_cases h1 : rows = veclen
    · subst h1
      by_cases h2 : isPow2 rows = true
      · exact ⟨rfl, (isPow2_iff rows).mp h2⟩
      · simp [h2] at h
    · simp [h1] at h
  · rintro ⟨h1, hk⟩
    subst h1
    simp [(isPow2_iff veclen).mpr hk]
  · intro h1
    simp [h1]
  · rintro rfl hk
    have h2 : isPow2 rows = false := by
      cases h : isPow2 rows
      · rfl
      · exact absurd ((isPow2_iff rows).mp h) hk
    simp [h2]

/-- C1 witness: concrete evaluations through `init_params_validation`. -/
theorem init_params_validation_witness :
    initParamsValidate 4 4 = Except.ok ()
    ∧ initParamsValidate 4 3 =
        Except.error ("Input vector dimension does not match input matrix dimension!")
    ∧ initParamsValidate 3 3 =
        Except.error ("Matrix dimension must be 2**n!") :=
  ⟨(init_params_validation 4 4).1.mpr ⟨rfl, 2, rfl⟩,
   (init_params_validation 4 3).2.1 (by decide),
   (init_params_validation 3 3).2.2 rfl
     (fun hk => by
       have := (isPow2_iff 3).mpr hk
       exact absurd this (by decide))⟩

/-- C3: when the success bit reads 0 in every raw entry, the post-selection
filter of `_tomo_postselect` yields exactly the synthetic mapping
`{'0': 0}` instead of an empty one (the external marginalization is a
subsequent, separate step). -/
theorem tomo_postselect_all_failure (allCounts : Counts)
    (h : ∀ kv ∈ allCounts, kv.1.getLast? = some '0') :
    tomoPostselectCounts allCounts = [([ '0' ], 0)] := by
  have hf : postselectPairs allCounts = [] := by
    unfold postselectPairs
    rw [List.filter_eq_nil_iff.mpr ?_]
    · rfl
    · intro kv hm
      rw [h kv hm]
      decide
  unfold tomoPostselectCounts
  rw [hf]
  rfl

/-- C3 witness: a concrete all-failure counts mapping. -/
theorem tomo_postselect_all_failure_witness :
    (∀ kv ∈ ([([ '1', ' ', '0' ], 7), ([ '0', ' ', '0' ], 3)] : Counts),
        kv.1.getLast? = some '0')
    ∧ tomoPostselectCounts [([ '1', ' ', '0' ], 7), ([ '0', ' ', '0' ], 3)] =
        [([ '0' ], 0)] :=
  ⟨by decide, tomo_postselect_all_failure _ (by decide)⟩

theorem dictInsert_ne_nil (d : Counts) (k : List Char) (v : ℕ) :
    dictInsert d k v ≠ [] := by
  cases d with
  | nil => simp [dictInsert]
  | cons kv rest =>
    unfold dictInsert
    split <;> simp

theorem foldl_dictInsert_ne_nil (ps : Counts) :
    ∀ d : Counts, d ≠ [] →
      ps.foldl (fun d kv => dictInsert d kv.1 kv.2) d ≠ [] := by
  induction ps with
  | nil => intro d hd; simpa using hd
  | cons kv rest ih =>
    intro d _
    simp only [List.foldl_cons]
    exact ih _ (dictInsert_ne_nil d kv.1 kv.2)

/-- C4: when the success bit reads 1 in every raw entry (keys in the qiskit
shape `payload ++ " 1"`, pairwise distinct as `dict` keys are), the
post-selection filter followed by marginalization over the target qubits
loses no shots: the filtered marginal total equals the raw total. -/
theorem tomo_postselect_all_success_total (allCounts : Counts) (qubits : List ℕ)
    (hform : ∀ kv ∈ allCounts, ∃ p, kv.1 = p ++ [' ', '1'])
    (hnodup : (allCounts.map Prod.fst).Nodup) :
    countsTotal (marginal_counts (tomoPostselectCounts allCounts) qubits) =
      countsTotal allCounts := by
  rw [marginal_counts_total]
  have hkeep : postselectPairs allCounts =
      allCounts.map (fun kv => (kv.1.dropLast.dropLast, kv.2)) := by
    unfold postselectPairs
    rw [List.filter_eq_self.mpr ?_]
    · intro kv hm
      rcases hform kv hm with ⟨p, hp⟩
      have : kv.1.getLast? = some '1' := by
        rw [hp, show p ++ [' ', '1'] = (p ++ [' ']) ++ ['1'] by simp,
          List.getLast?_concat]
      rw [this]
      decide
  have hdd : ∀ kv ∈ allCounts, kv.1.dropLast.dropLast = kv.1.dropLast.dropLast :=
    fun _ _ => rfl
  have hpkeys : (postselectPairs allCounts).map Prod.fst =
      (allCounts.map Prod.fst).map (fun k => k.dropLast.dropLast) := by
    rw [hkeep]
    simp [Function.comp]
  have hnodup2 : ((postselectPairs allCounts).map Prod.fst).Nodup := by
    rw [hpkeys]
    refine List.Nodup.map_on ?_ hnodup
    intro x hx y hy hxy
    rcases List.mem_map.mp hx with ⟨kvx, hkvx, hfx⟩
    rcases List.mem_map.mp hy with ⟨kvy, hkvy, hfy⟩
    rcases hform kvx hkvx with ⟨px, hpx⟩
    rcases hform kvy hkvy with ⟨py, hpy⟩
    have hxp : x.dropLast.dropLast = px := by
      rw [← hfx, hpx, show px ++ [' ', '1'] = (px ++ [' ']) ++ ['1'] by simp,
        List.dropLast_concat, List.dropLast_concat]
    have hyp : y.dropLast.dropLast = py := by
      rw [← hfy, hpy, show py ++ [' ', '1'] = (py ++ [' ']) ++ ['1'] by simp,
        List.dropLast_concat, List.dropLast_concat]
    have hpq : px = py := by rw [← hxp, ← hyp, hxy]
    rw [← hfx, ← hfy, hpx, hpy, hpq]
  have htot : countsTotal (postselectPairs allCounts) = countsTotal allCounts := by
    rw [hkeep]
    unfold countsTotal
    rw [List.map_map]
    rfl
  cases hA : allCounts with
  | nil =>
    subst hA
    simp [tomoPostselectCounts, postselectPairs, dictOfPairs, countsTotal]
  | cons kv rest =>
    have hne : postselectPairs allCounts ≠ [] := by
      rw [hkeep, hA]
      simp
    have hfl : dictOfPairs (postselectPairs allCounts) ≠ [] := by
      unfold dictOfPairs
      cases hps : postselectPairs allCounts with
      | nil => exact absurd hps hne
      | cons kv2 rest2 =>
        simp only [List.foldl_cons]
        exact foldl_dictInsert_ne_nil rest2 _ (dictInsert_ne_nil [] kv2.1 kv2.2)
    rw [← hA]
    unfold tomoPostselectCounts
    simp only [hfl, if_false, reduceIte]
    rw [dictOfPairs_total _ hnodup2, htot]

/-- C4 witness: a concrete all-success counts mapping over one target
qubit. -/
theorem tomo_postselect_all_success_total_witness :
    (∀ kv ∈ ([([ '0', ' ', '1' ], 3), ([ '1', ' ', '1' ], 2)] : Counts),
        ∃ p, kv.1 = p ++ [' ', '1'])
    ∧ (([([ '0', ' ', '1' ], 3), ([ '1', ' ', '1' ], 2)] : Counts).map Prod.fst).Nodup
    ∧ countsTotal
        (marginal_counts
          (tomoPostselectCounts [([ '0', ' ', '1' ], 3), ([ '1', ' ', '1' ], 2)]) [0]) =
        countsTotal [([ '0', ' ', '1' ], 3), ([ '1', ' ', '1' ], 2)] := by
  refine ⟨?_, by decide, ?_⟩
  · intro kv hm
    simp only [List.mem_cons, List.not_mem_nil, or_false] at hm
    rcases hm with h | h
    · exact ⟨[ '0' ], by simp [h]⟩
    · exact ⟨[ '1' ], by simp [h]⟩
  · refine tomo_postselect_all_success_total _ [0] ?_ (by decide)
    intro kv hm
    simp only [List.mem_cons, List.not_mem_nil, or_false] at hm
    rcases hm with h | h
    · exact ⟨[ '0' ], by simp [h]⟩
    · exact ⟨[ '1' ], by simp [h]⟩

/-- C6: a reconstructed vector equal to the unit-normalized classical
solution up to a global phase factor has fidelity
`|⟨theoretical, reconstructed⟩|²` exactly 1 (the conjugate is taken on the
reconstructed side, as in `_hhl_results`). -/
theorem fidelity_global_phase_one {n : ℕ} (A : Matrix (Fin n) (Fin n) ℂ)
    (b : Fin n → ℂ) (num_q : ℕ) (ret : RetRecord n) (phi : ℝ)
    (h : npSolve A b ≠ 0) :
    ((hhl_results A b num_q
        (fun i => Complex.exp (Complex.I * (phi : ℂ)) *
          (npSolve A b i / (l2norm (npSolve A b) : ℂ)))
        ret).fidelity_hhl_to_classical).getD 0 = 1 := by
  have hr : 0 < l2norm (npSolve A b) := l2norm_pos _ h
  have hrr : (0 : ℝ) < l2norm (npSolve A b) * l2norm (npSolve A b) :=
    mul_pos hr hr
  have hsum : ∑ i, Complex.normSq
      (npSolve A b i / ((l2norm (npSolve A b) : ℝ) : ℂ)) = 1 := by
    have h1 : ∀ i, Complex.normSq (npSolve A b i / ((l2norm (npSolve A b) : ℝ) : ℂ)) =
        Complex.normSq (npSolve A b i) /
          (l2norm (npSolve A b) * l2norm (npSolve A b)) := fun i => by
      rw [Complex.normSq_div, Complex.normSq_ofReal]
    simp only [h1]
    rw [← Finset.sum_div, l2norm_mul_self]
    exact div_self (by rw [← l2norm_mul_self]; exact ne_of_gt hrr)
  have hdot : dotConj (fun i => npSolve A b i / ((l2norm (npSolve A b) : ℝ) : ℂ))
      (fun i => Complex.exp (Complex.I * (phi : ℂ)) *
        (npSolve A b i / ((l2norm (npSolve A b) : ℝ) : ℂ))) =
      (starRingEnd ℂ) (Complex.exp (Complex.I * (phi : ℂ))) := by
    unfold dotConj
    have hterm : ∀ i,
        (npSolve A b i / ((l2norm (npSolve A b) : ℝ) : ℂ)) *
          (starRingEnd ℂ) (Complex.exp (Complex.I * (phi : ℂ)) *
            (npSolve A b i / ((l2norm (npSolve A b) : ℝ) : ℂ))) =
        (starRingEnd ℂ) (Complex.exp (Complex.I * (phi : ℂ))) *
          ((Complex.normSq (npSolve A b i / ((l2norm (npSolve A b) : ℝ) : ℂ)) : ℝ) : ℂ) := by
      intro i
      rw [map_mul, ← Complex.mul_conj]
      ring
    simp only [hterm]
    rw [← Finset.mul_sum, ← Complex.ofReal_sum, hsum]
    simp
  have habs : Complex.abs ((starRingEnd ℂ) (Complex.exp (Complex.I * (phi : ℂ)))) = 1 := by
    rw [Complex.abs_conj, Complex.abs_exp]
    simp
  simp only [hhl_results, Option.getD_some]
  rw [hdot, habs]
  norm_num

/-- C6 witness: the identity system on one qubit with phase 0. -/
theorem fidelity_global_phase_one_witness :
    npSolve (1 : Matrix (Fin 1) (Fin 1) ℂ) (fun _ => 1) ≠ 0
    ∧ ((hhl_results (1 : Matrix (Fin 1) (Fin 1) ℂ) (fun _ => 1) 1
        (fun i => Complex.exp (Complex.I * ((0 : ℝ) : ℂ)) *
          (npSolve (1 : Matrix (Fin 1) (Fin 1) ℂ) (fun _ => 1) i /
            (l2norm (npSolve (1 : Matrix (Fin 1) (Fin 1) ℂ) (fun _ => 1)) : ℂ)))
        {}).fidelity_hhl_to_classical).getD 0 = 1 := by
  have hne : npSolve (1 : Matrix (Fin 1) (Fin 1) ℂ) (fun _ => 1) ≠ 0 := by
    unfold npSolve
    rw [inv_one, Matrix.one_mulVec]
    intro hcon
    have h0 := congrFun hcon 0
    simp at h0
  exact ⟨hne, fidelity_global_phase_one _ _ 1 {} 0 hne⟩

/-- C7: applying the matrix to the rescaled solution reproduces the norm of
the input vector whenever `A · vec` is nonzero: the phase factor has modulus
one and the scale factor is `||b|| / ||A·vec||`. -/
theorem rescaled_solution_norm {n : ℕ} (A : Matrix (Fin n) (Fin n) ℂ)
    (b : Fin n → ℂ) (num_q : ℕ) (vec : Fin n → ℂ) (ret : RetRecord n)
    (h : A.mulVec vec ≠ 0) :
    l2norm (A.mulVec
      (((hhl_results A b num_q vec ret).solution_hhl).getD (fun _ => 0))) =
      l2norm b := by
  have htmp : l2norm (A.mulVec vec) ≠ 0 :=
    fun he => h ((l2norm_eq_zero_iff _).mp he)
  simp only [hhl_results, Option.getD_some]
  set f1 : ℝ := l2norm b / l2norm (A.mulVec vec) with hf1
  set f2 : ℝ :=
    (∑ i, Complex.arg (b i * (starRingEnd ℂ) (A.mulVec vec i) - 1 + 1)) / (num_q : ℝ)
    with hf2
  have hfun : (fun i => (f1 : ℂ) * vec i * Complex.exp (-Complex.I * (f2 : ℂ))) =
      ((f1 : ℂ) * Complex.exp (-Complex.I * (f2 : ℂ))) • vec := by
    funext i
    simp only [Pi.smul_apply, smul_eq_mul]
    ring
  rw [hfun, Matrix.mulVec_smul]
  have hsmul : ((f1 : ℂ) * Complex.exp (-Complex.I * (f2 : ℂ))) • A.mulVec vec =
      fun i => ((f1 : ℂ) * Complex.exp (-Complex.I * (f2 : ℂ))) * A.mulVec vec i := rfl
  rw [hsmul, l2norm_smul]
  have habs : Complex.abs ((f1 : ℂ) * Complex.exp (-Complex.I * (f2 : ℂ))) = f1 := by
    rw [map_mul, Complex.abs_exp, Complex.abs_ofReal]
    have hre : (-Complex.I * (f2 : ℂ)).re = 0 := by simp
    rw [hre]
    rw [abs_of_nonneg (div_nonneg (l2norm_nonneg b) (l2norm_nonneg (A.mulVec vec)))]
    simp
  rw [habs, hf1, div_mul_cancel₀ _ htmp]

/-- C7 witness: the identity system on one qubit. -/
theorem rescaled_solution_norm_witness :
    (1 : Matrix (Fin 1) (Fin 1) ℂ).mulVec (fun _ => 1) ≠ 0
    ∧ l2norm ((1 : Matrix (Fin 1) (Fin 1) ℂ).mulVec
        (((hhl_results (1 : Matrix (Fin 1) (Fin 1) ℂ) (fun _ => 1) 1 (fun _ => 1)
          {}).solution_hhl).getD (fun _ => 0))) = l2norm (fun _ : Fin 1 => (1 : ℂ)) := by
  have hne : (1 : Matrix (Fin 1) (Fin 1) ℂ).mulVec (fun _ => 1) ≠ 0 := by
    rw [Matrix.one_mulVec]
    intro hcon
    have h0 := congrFun hcon 0
    simp at h0
  exact ⟨hne, rescaled_solution_norm _ _ 1 _ {} hne⟩

/-- C8: the statevector path records `probability_result = ⟨v,v⟩` of the
unnormalized projected success-branch vector `v` and stores `output_hhl`
as `v` divided by its L2 norm; the recorded probability equals the squared
L2 norm of `v`. -/
theorem statevector_extraction_record {n : ℕ} {SV : Type}
    (A : Matrix (Fin n) (Fin n) ℂ) (b : Fin n → ℂ) (num_q : ℕ)
    (svProj : SV → (Fin n → ℂ)) (sv : SV) (ret : RetRecord n) :
    (statevector_simulation A b num_q svProj sv ret).probability_result =
        some (Sum.inl (dotConj (svProj sv) (svProj sv)))
    ∧ (statevector_simulation A b num_q svProj sv ret).output_hhl =
        some (fun i => svProj sv i / (l2norm (svProj sv) : ℂ))
    ∧ dotConj (svProj sv) (svProj sv) = ((l2norm (svProj sv) ^ 2 : ℝ) : ℂ) := by
  refine ⟨?_, ?_, ?_⟩
  · simp [statevector_simulation, hhl_results]
  · simp [statevector_simulation, hhl_results]
  · rw [dotConj_self]
    exact congrArg _ (by rw [sq, l2norm_mul_self])

/-- C9: one extraction path executes per run, selected up front by the
backend's `is_statevector` flag.  With the flag set, the circuit is built
with measurement disabled (no classical register, no measure operation) and
the statevector extraction runs (scalar probability).  With the flag clear,
the circuit is built with measurement enabled: a one-bit classical register
is appended and bound to the success ancilla by a measure operation, the
success bit is stored, and the tomography extraction runs (per-basis
probability list). -/
theorem run_single_path_dispatch {n : ℕ} [NeZero n] {SV : Type}
    (s : HHLState n) (svProj : SV → (Fin n → ℂ)) (sv : SV)
    (probs : List ℝ) (rho : Matrix (Fin n) (Fin n) ℂ) (a anc : QuantumReg) :
    ((run s true svProj sv probs rho a anc).circuit =
        some (construct_circuit s.num_q a anc false)
      ∧ (construct_circuit s.num_q a anc false).cregs = []
      ∧ (∀ q c, CircuitOp.measure q c ∉ (construct_circuit s.num_q a anc false).ops)
      ∧ (run s true svProj sv probs rho a anc).ret.probability_result =
          some (Sum.inl (dotConj (svProj sv) (svProj sv))))
    ∧ ((run s false svProj sv probs rho a anc).circuit =
        some (construct_circuit s.num_q a anc true)
      ∧ (construct_circuit s.num_q a anc true).cregs = [⟨1⟩]
      ∧ (construct_circuit s.num_q a anc true).ops =
          [CircuitOp.initStateFragment, CircuitOp.eigsFragment,
           CircuitOp.reciprocalFragment, CircuitOp.eigsInverseFragment,
           CircuitOp.measure anc ⟨1⟩]
      ∧ (run s false svProj sv probs rho a anc).success_bit = some ⟨1⟩
      ∧ (run s false svProj sv probs rho a anc).ret.probability_result =
          some (Sum.inr probs)) := by
  refine ⟨⟨?_, ?_, ?_, ?_⟩, ⟨?_, ?_, ?_, ?_, ?_⟩⟩
  · simp [run, constructCircuitState]
  · simp [construct_circuit]
  · intro q c
    simp [construct_circuit]
  · simp [run, constructCircuitState, statevector_simulation, hhl_results]
  · simp [run, constructCircuitState]
  · simp [construct_circuit]
  · simp [construct_circuit]
  · simp [run, constructCircuitState]
  · simp [run, constructCircuitState, state_tomography, hhl_results]

/-- C9 witness: concrete dispatch on a one-qubit system, both flag values. -/
theorem run_single_path_dispatch_witness :
    (run (hhlInit (1 : Matrix (Fin 1) (Fin 1) ℂ) (fun _ => 1) 1) true
        (fun _ : Unit => (fun _ => 1)) () [] 1 ⟨"a", 1⟩ ⟨"s", 1⟩).circuit =
      some (construct_circuit
        ((hhlInit (1 : Matrix (Fin 1) (Fin 1) ℂ) (fun _ => 1) 1).num_q)
        ⟨"a", 1⟩ ⟨"s", 1⟩ false)
    ∧ (run (hhlInit (1 : Matrix (Fin 1) (Fin 1) ℂ) (fun _ => 1) 1) false
        (fun _ : Unit => (fun _ => 1)) () [] 1 ⟨"a", 1⟩ ⟨"s", 1⟩).success_bit =
      some ⟨1⟩ :=
  ⟨(run_single_path_dispatch (hhlInit (1 : Matrix (Fin 1) (Fin 1) ℂ) (fun _ => 1) 1)
      (fun _ : Unit => (fun _ => 1)) () [] 1 ⟨"a", 1⟩ ⟨"s", 1⟩).1.1,
   (run_single_path_dispatch (hhlInit (1 : Matrix (Fin 1) (Fin 1) ℂ) (fun _ => 1) 1)
      (fun _ : Unit => (fun _ => 1)) () [] 1 ⟨"a", 1⟩ ⟨"s", 1⟩).2.2.2.2.1⟩

/-- C10: running the pipeline never modifies the stored inputs: after `_run`
the algorithm state still holds the constructor's matrix and vector, and the
returned record's `input_matrix` and `input_vector` are exactly those
inputs. -/
theorem run_preserves_inputs {n : ℕ} [NeZero n] {SV : Type}
    (A : Matrix (Fin n) (Fin n) ℂ) (b : Fin n → ℂ) (num_q : ℕ)
    (is_statevector : Bool) (svProj : SV → (Fin n → ℂ)) (sv : SV)
    (probs : List ℝ) (rho : Matrix (Fin n) (Fin n) ℂ) (a anc : QuantumReg) :
    (run (hhlInit A b num_q) is_statevector svProj sv probs rho a anc).matrix = A
    ∧ (run (hhlInit A b num_q) is_statevector svProj sv probs rho a anc).vector = b
    ∧ (run (hhlInit A b num_q) is_statevector svProj sv probs rho a anc).ret.input_matrix =
        some A
    ∧ (run (hhlInit A b num_q) is_statevector svProj sv probs rho a anc).ret.input_vector =
        some b := by
  cases is_statevector <;>
    simp [run, hhlInit, constructCircuitState, statevector_simulation,
      state_tomography, hhl_results]

/-- C10 witness: concrete frame preservation on a one-qubit run. -/
theorem run_preserves_inputs_witness :
    (run (hhlInit (1 : Matrix (Fin 1) (Fin 1) ℂ) (fun _ => 1) 1) true
        (fun _ : Unit => (fun _ => 1)) () [] 1 ⟨"a", 1⟩ ⟨"s", 1⟩).matrix = 1
    ∧ (run (hhlInit (1 : Matrix (Fin 1) (Fin 1) ℂ) (fun _ => 1) 1) true
        (fun _ : Unit => (fun _ => 1)) () [] 1 ⟨"a", 1⟩ ⟨"s", 1⟩).vector =
      (fun _ => 1)
    ∧ (run (hhlInit (1 : Matrix (Fin 1) (Fin 1) ℂ) (fun _ => 1) 1) true
        (fun _ : Unit => (fun _ => 1)) () [] 1 ⟨"a", 1⟩ ⟨"s", 1⟩).ret.input_matrix =
      some 1
    ∧ (run (hhlInit (1 : Matrix (Fin 1) (Fin 1) ℂ) (fun _ => 1) 1) true
        (fun _ : Unit => (fun _ => 1)) () [] 1 ⟨"a", 1⟩ ⟨"s", 1⟩).ret.input_vector =
      some (fun _ => 1) :=
  run_preserves_inputs 1 (fun _ => 1) 1 true (fun _ : Unit => (fun _ => 1)) () [] 1
    ⟨"a", 1⟩ ⟨"s", 1⟩

/-- C2 (amended): the tomography path hands `_hhl_results` exactly the fitted
matrix's first column rescaled by `1 / sqrt(rho[0,0])`, with no further
normalization; when `rho[0,0]` is a positive real `r`, that vector has unit
L2 norm iff the squared norm of the first column equals `r` (as for a
pure-state fit), and not in general. -/
theorem tomo_rescaled_column_handoff {n : ℕ} [NeZero n]
    (rho : Matrix (Fin n) (Fin n) ℂ) (r : ℝ)
    (h : rho 0 0 = (r : ℂ)) (hr : 0 < r) :
    (∀ (A : Matrix (Fin n) (Fin n) ℂ) (b : Fin n → ℂ) (num_q : ℕ)
        (probs : List ℝ) (ret : RetRecord n),
        (state_tomography A b num_q probs rho ret).output_hhl = some (tomoVec rho))
    ∧ (l2norm (tomoVec rho) = 1 ↔ ∑ i, Complex.normSq (rho i 0) = r) := by
  constructor
  · intro A b num_q probs ret
    simp [state_tomography, hhl_results]
  · unfold tomoVec l2norm
    rw [h, npSqrtC_ofReal r hr.le]
    have h1 : ∀ i : Fin n, Complex.normSq (rho i 0 / ((Real.sqrt r : ℝ) : ℂ)) =
        Complex.normSq (rho i 0) / r := by
      intro i
      rw [Complex.normSq_div, Complex.normSq_ofReal, Real.mul_self_sqrt hr.le]
    simp only [h1]
    rw [← Finset.sum_div, Real.sqrt_eq_one, div_eq_one_iff_eq (ne_of_gt hr)]

/-- C2 amended-claim witness: the pure-state fit `rho = [[1,0],[0,0]]`,
whose rescaled first column does have unit norm. -/
theorem tomo_rescaled_column_handoff_witness :
    ((Matrix.of ![![(1 : ℂ), 0], ![0, 0]]) 0 0 = ((1 : ℝ) : ℂ))
    ∧ ((0 : ℝ) < 1)
    ∧ (state_tomography (1 : Matrix (Fin 2) (Fin 2) ℂ) (fun _ => 1) 1 []
        (Matrix.of ![![(1 : ℂ), 0], ![0, 0]]) {}).output_hhl =
        some (tomoVec (Matrix.of ![![(1 : ℂ), 0], ![0, 0]]))
    ∧ (l2norm (tomoVec (Matrix.of ![![(1 : ℂ), 0], ![0, 0]])) = 1 ↔
        ∑ i, Complex.normSq ((Matrix.of ![![(1 : ℂ), 0], ![0, 0]]) i 0) = 1) := by
  have h00 : (Matrix.of ![![(1 : ℂ), 0], ![0, 0]]) 0 0 = ((1 : ℝ) : ℂ) := by simp
  refine ⟨h00, by norm_num,
    (tomo_rescaled_column_handoff (Matrix.of ![![(1 : ℂ), 0], ![0, 0]]) 1 h00
      (by norm_num)).1 1 (fun _ => 1) 1 [] {},
    (tomo_rescaled_column_handoff (Matrix.of ![![(1 : ℂ), 0], ![0, 0]]) 1 h00
      (by norm_num)).2⟩

/-- The maximally-informative counterexample density matrix
`[[1/4, 0], [0, 3/4]]`: Hermitian, trace one, positive semidefinite. -/
noncomputable def rhoMixed : Matrix (Fin 2) (Fin 2) ℂ :=
  Matrix.of ![![(1 / 4 : ℂ), 0], ![0, 3 / 4]]

/-- C2 counterexample: for the genuine density matrix `rhoMixed`, the vector
the tomography path hands to result validation — the one the fidelity is
computed on — has L2 norm `1/2`, not `1`: no normalization to unit norm
happens before the fidelity computation. -/
theorem tomo_handoff_not_unit_norm :
    (rhoMixed 0 0 + rhoMixed 1 1 = 1)
    ∧ (state_tomography (1 : Matrix (Fin 2) (Fin 2) ℂ) (fun _ => 1) 1 []
        rhoMixed {}).output_hhl = some (tomoVec rhoMixed)
    ∧ l2norm (tomoVec rhoMixed) = 1 / 2
    ∧ l2norm (tomoVec rhoMixed) ≠ 1 := by
  have h00 : rhoMixed 0 0 = (1 / 4 : ℂ) := by simp [rhoMixed]
  have h10 : rhoMixed 1 0 = 0 := by simp [rhoMixed]
  have hsq : npSqrtC ((1 / 4 : ℂ)) = (((1 / 2 : ℝ)) : ℂ) := by
    have hc : ((1 / 4 : ℂ)) = (((1 / 4 : ℝ)) : ℂ) := by push_cast; ring
    rw [hc, npSqrtC_ofReal (1 / 4) (by norm_num)]
    rw [show (1 / 4 : ℝ) = (1 / 2) ^ 2 by norm_num,
      Real.sqrt_sq (by norm_num : (0 : ℝ) ≤ 1 / 2)]
  have hnorm : l2norm (tomoVec rhoMixed) = 1 / 2 := by
    unfold l2norm tomoVec
    rw [h00, hsq, Fin.sum_univ_two, h00, h10]
    have e0 : Complex.normSq ((1 / 4 : ℂ) / (((1 / 2 : ℝ)) : ℂ)) = 1 / 4 := by
      rw [Complex.normSq_div, Complex.normSq_ofReal]
      have : Complex.normSq (1 / 4 : ℂ) = 1 / 16 := by
        rw [show (1 / 4 : ℂ) = (((1 / 4 : ℝ)) : ℂ) by push_cast; ring,
          Complex.normSq_ofReal]
        norm_num
      rw [this]
      norm_num
    have e1 : Complex.normSq ((0 : ℂ) / (((1 / 2 : ℝ)) : ℂ)) = 0 := by
      rw [zero_div, map_zero]
    rw [e0, e1]
    rw [show (1 / 4 + 0 : ℝ) = (1 / 2) ^ 2 by norm_num,
      Real.sqrt_sq (by norm_num : (0 : ℝ) ≤ 1 / 2)]
  refine ⟨?_, ?_, hnorm, ?_⟩
  · simp [rhoMixed]
    norm_num
  · simp [state_tomography, hhl_results]
  · rw [hnorm]
    norm_num

/-- The total-post-selection-loss density matrix `[[0,0],[0,1]]`, whose
reference entry `rho[0,0]` is zero. -/
noncomputable def rhoLost : Matrix (Fin 2) (Fin 2) ℂ :=
  Matrix.of ![![(0 : ℂ), 0], ![0, 1]]

/-- C5 evaluation at the failing input: with `rho[0,0] = 0` the
reconstruction raises no error — the division by `sqrt(0) = 0` proceeds
silently (numpy emits only a RuntimeWarning; in the exact model the quotient
collapses to the zero vector) and the pipeline continues into
`_hhl_results`, producing a degenerate record with fidelity 0 instead of
surfacing a numerical error. -/
theorem tomo_zero_reference_entry_silent :
    rhoLost 0 0 = 0
    ∧ tomoVec rhoLost = (fun _ => 0)
    ∧ (state_tomography (1 : Matrix (Fin 2) (Fin 2) ℂ) (fun _ => 1) 1 []
        rhoLost {}).output_hhl = some (fun _ => 0)
    ∧ (state_tomography (1 : Matrix (Fin 2) (Fin 2) ℂ) (fun _ => 1) 1 []
        rhoLost {}).fidelity_hhl_to_classical = some 0 := by
  have h00 : rhoLost 0 0 = 0 := by simp [rhoLost]
  have hz : tomoVec rhoLost = (fun _ => 0) := by
    funext i
    unfold tomoVec npSqrtC
    rw [h00, Complex.zero_cpow (by norm_num : ((1 : ℂ) / 2) ≠ 0), div_zero]
  refine ⟨h00, hz, ?_, ?_⟩
  · have hout : (state_tomography (1 : Matrix (Fin 2) (Fin 2) ℂ) (fun _ => 1) 1 []
        rhoLost {}).output_hhl = some (tomoVec rhoLost) := by
      simp [state_tomography, hhl_results]
    rw [hout, hz]
  · simp only [state_tomography, hhl_results, hz]
    have hd : ∀ u : Fin 2 → ℂ, dotConj u (fun _ => 0) = 0 := by
      intro u
      unfold dotConj
      simp
    rw [hd]
    simp

end HHLSpec
